import Mathlib

/-!
Verification of the statistics/metrics pipeline of
`fairseq_signals/criterions/binary_cross_entropy.py`
(class `BinaryCrossEntropyCriterion`) and of the per-file conversion of
`fairseq_signals/data/ecg/preprocess/preprocess_pad_ecgiddb.py`.

Python floats are embedded as `ℚ` (the inputs and arithmetic relevant to
the claims are exact), tensors as lists, dictionaries with optional keys
as records with `Option` fields, and raising code as `Except`.
-/

namespace FairseqSignals

/-- Truncation toward zero, the semantics of Python's / torch's cast to an
integer type (`tensor.long()`). -/
def pyLong (q : ℚ) : ℤ := if q < 0 then ⌈q⌉ else ⌊q⌋

/-- The bool-tensor vs float-tensor comparison `outputs == target`
coerces `True` to `1.0` and `False` to `0.0`. -/
def boolToQ (b : Bool) : ℚ := if b then 1 else 0

/-! ## Producer: `BinaryCrossEntropyCriterion.forward`

`forward` builds a `logging_output` dict.  The loss value itself is
transcendental (binary cross entropy) and enters the claims only as an
opaque per-batch scalar, so the bundle stores it abstractly; the
statistics fields are computed from the sigmoid probabilities and the
targets exactly as lines 64–105 of the source do. -/

/-- The `logging_output` dict built by `forward` (lines 71–109).
`fn` is a reserved word in Lean, hence the field name `fn'`.
`y_true`/`y_score` embed the optional `_y_true`/`_y_score` entries,
present only in eval mode with `report_auc`. -/
structure LoggingOutput where
  loss : ℚ
  nsignals : ℕ
  sample_size : ℤ
  correct : ℕ
  count : ℕ
  tp : ℕ
  fp : ℕ
  tn : ℕ
  fn' : ℕ
  y_true : Option (List ℚ) := none
  y_score : Option (List ℚ) := none
deriving Repr, DecidableEq

/-- Lines 64–69 of `forward`: the three-way `sample_size` precedence.
`sample['sample_size']` if present; else the sum of
`sample['net_input']['mask_indices']` (a bool tensor, whose sum is the
number of `True` entries); else `target.long().sum().item()`. -/
def sample_size_of (sample_sample_size : Option ℤ)
    (mask_indices : Option (List Bool)) (target : List ℚ) : ℤ :=
  match sample_sample_size with
  | some v => v
  | none =>
    match mask_indices with
    | some mi => (mi.countP (fun b => b) : ℤ)
    | none => (target.map pyLong).sum

/-- Lines 77–105 of `forward`: `outputs = (sigmoid(logits) > 0.5)`;
if `probs.numel() == 0` every statistic is zero; otherwise
`corr = (outputs == target).sum()`, `count = probs.numel()`, and the
confusion cells come from the partitions `torch.where(target == 1)` /
`torch.where(target == 0)`.  The function takes the probabilities
(`probs = sigmoid(logits)`) and the targets and returns
`(corr, count, tp, fp, tn, fn)`. -/
def forwardStats (probs target : List ℚ) : ℕ × ℕ × ℕ × ℕ × ℕ × ℕ :=
  let outputs := probs.map (fun p => decide ((1 : ℚ)/2 < p))
  if probs.length = 0 then (0, 0, 0, 0, 0, 0)
  else
    let count := probs.length
    let corr := (outputs.zip target).countP (fun ot => decide (boolToQ ot.1 = ot.2))
    let posPart := (outputs.zip target).filter (fun ot => decide (ot.2 = 1))
    let negPart := (outputs.zip target).filter (fun ot => decide (ot.2 = 0))
    let tp := posPart.countP (fun ot => ot.1)
    let fn' := posPart.length - tp
    let fp := negPart.countP (fun ot => ot.1)
    let tn := negPart.length - fp
    (corr, count, tp, fp, tn, fn')

/-! ## Reducer: `BinaryCrossEntropyCriterion.reduce_metrics`

`reduce_metrics` sums the additive fields of the bundles and registers
scalar and derived metrics with the `metrics` sink.  We model one call
on a fresh sink: the derived lambdas, which read the sink's accumulated
sums (`meters["_total"].sum` etc.), then see exactly this call's sums.
The emitted metric set is a record; a derived metric that is never
registered (the `if total > 0` gate at line 166, the `if len(y_true) > 0`
gate at line 135) is `none`, distinct from a registered `NaN` value.
Raising (`logging_outputs[0]` on an empty list at line 129, and
`np.concatenate` meeting the scalar default `0` of `log.get` at
lines 130–131) is an `Except.error`. -/

/-- A value registered with the sink: the float NaN sentinel or a number.
`safe_round` lives outside the repository; values are recorded exactly,
with the rounding digit count carried separately where a claim needs it. -/
inductive MetricVal where
  | nan : MetricVal
  | val : ℚ → MetricVal
deriving Repr, DecidableEq

/-- The two ways `reduce_metrics` can raise. -/
inductive ReduceError where
  | indexError : ReduceError
  | concatError : ReduceError
deriving Repr, DecidableEq

/-- Semantics of `np.concatenate([log.get(k, 0) for log in logs])`: every
entry must be an actual array (`some`) or numpy raises on the scalar
default `0`. -/
def concatAll : List (Option (List ℚ)) → Option (List ℚ)
  | [] => some []
  | none :: _ => none
  | some x :: rest => (concatAll rest).map (fun r => x ++ r)

/-- The metrics emitted by one `reduce_metrics` call on a fresh sink. -/
structure ReducedMetrics where
  /-- value of the `loss` scalar before the final division by `ln 2`:
  `loss_sum / (sample_size or 1)` (line 126). -/
  loss_nats : ℚ
  /-- the `round` argument passed with the `loss` scalar (line 126). -/
  loss_round : ℕ
  nsignals : ℕ
  sample_size : ℤ
  /-- the pair `(y_score, y_true)` handed to the `AUCMeter` (line 133), if
  the AUC branch ran. -/
  auc_fed : Option (List ℚ × List ℚ)
  /-- equals `some r` iff the `auroc`/`auprc` derived metrics were
  registered, with `r` the digit count of their `safe_round`
  (lines 136–147). -/
  auroc_auprc_round : Option ℕ
  correct : ℕ
  total : ℕ
  tp : ℕ
  fp : ℕ
  tn : ℕ
  fn' : ℕ
  accuracy : Option MetricVal
  precision : Option MetricVal
  recall' : Option MetricVal
deriving Repr, DecidableEq

/-- The record any non-raising run of `reduce_metrics` emits, given the
outcome of the AUC branch.  The inner conditionals of the derived
lambdas read the fresh sink's sums, i.e. exactly this call's sums. -/
def mkReduced (l : List LoggingOutput) (auc_fed : Option (List ℚ × List ℚ))
    (auc_round : Option ℕ) : ReducedMetrics :=
  let sample_size : ℤ := (l.map (·.sample_size)).sum
  let correct := (l.map (·.correct)).sum
  let total := (l.map (·.count)).sum
  let tp := (l.map (·.tp)).sum
  let fp := (l.map (·.fp)).sum
  let tn := (l.map (·.tn)).sum
  let fn' := (l.map (·.fn')).sum
  { loss_nats := (l.map (·.loss)).sum / (if sample_size = 0 then 1 else (sample_size : ℚ))
    loss_round := 3
    nsignals := (l.map (·.nsignals)).sum
    sample_size := sample_size
    auc_fed := auc_fed
    auroc_auprc_round := auc_round
    correct := correct
    total := total
    tp := tp
    fp := fp
    tn := tn
    fn' := fn'
    accuracy :=
      if 0 < total then
        some (if 0 < total then MetricVal.val ((correct : ℚ) / (total : ℚ)) else MetricVal.nan)
      else none
    precision :=
      if 0 < total then
        some (if 0 < tp + fp then MetricVal.val ((tp : ℚ) / ((tp : ℚ) + (fp : ℚ))) else MetricVal.nan)
      else none
    recall' :=
      if 0 < total then
        some (if 0 < tp + fn' then MetricVal.val ((tp : ℚ) / ((tp : ℚ) + (fn' : ℚ))) else MetricVal.nan)
      else none }

/-- Lines 114–192: `reduce_metrics`.  On `[]` the subscript
`logging_outputs[0]` at line 129 raises IndexError (after the `loss`
scalar was already handed to the sink; a raising call's partial effects
are not represented).  The AUC branch runs iff the FIRST bundle carries
both `_y_true` and `_y_score`; inside it, a bundle missing one of them
makes `np.concatenate` raise. -/
def reduceMetrics (logging_outputs : List LoggingOutput) :
    Except ReduceError ReducedMetrics :=
  match logging_outputs with
  | [] => Except.error ReduceError.indexError
  | first :: _ =>
    if first.y_true.isSome && first.y_score.isSome then
      match concatAll (logging_outputs.map (·.y_true)),
            concatAll (logging_outputs.map (·.y_score)) with
      | some yt, some ys =>
        Except.ok (mkReduced logging_outputs (some (ys, yt))
          (if 0 < yt.length then some 3 else none))
      | none, _ => Except.error ReduceError.concatError
      | some _, none => Except.error ReduceError.concatError
    else
      Except.ok (mkReduced logging_outputs none none)

/-- Lines 194–201: `logging_outputs_can_be_summed` returns `False`. -/
def logging_outputs_can_be_summed : Bool := false

/-- The value of the `loss` scalar as the sink receives it at line 126:
`loss_sum / (sample_size or 1) / math.log(2)`. -/
noncomputable def emittedLoss (m : ReducedMetrics) : ℝ :=
  (m.loss_nats : ℝ) / Real.log 2

/-- Concatenation of a list of arrays all of which are present
(the value `np.concatenate` returns when it does not raise). -/
def joinSomes (xs : List (Option (List ℚ))) : List ℚ :=
  (xs.map (fun o => o.getD [])).flatten

/-- The pooled bundle: one `logging_output` holding the summed counts of a
whole sequence (no raw AUC arrays). -/
def poolStats (l : List LoggingOutput) : LoggingOutput :=
  { loss := (l.map (·.loss)).sum
    nsignals := (l.map (·.nsignals)).sum
    sample_size := (l.map (·.sample_size)).sum
    correct := (l.map (·.correct)).sum
    count := (l.map (·.count)).sum
    tp := (l.map (·.tp)).sum
    fp := (l.map (·.fp)).sum
    tn := (l.map (·.tn)).sum
    fn' := (l.map (·.fn')).sum }

/-- An all-zero statistics bundle (an empty batch's `logging_output`),
used as a concrete evaluation input. -/
def bundleZero : LoggingOutput :=
  { loss := 0, nsignals := 0, sample_size := 0, correct := 0, count := 0,
    tp := 0, fp := 0, tn := 0, fn' := 0 }

/-- Concrete worker bundle `tp=3, fp=1, fn=2, tn=4` (spec §8), used as a
concrete evaluation input. -/
def bundleA : LoggingOutput :=
  { loss := 2, nsignals := 10, sample_size := 5, correct := 7, count := 10,
    tp := 3, fp := 1, tn := 4, fn' := 2 }

/-- Concrete worker bundle `tp=1, fp=0, fn=1, tn=2` (spec §8), used as a
concrete evaluation input. -/
def bundleB : LoggingOutput :=
  { loss := 1, nsignals := 4, sample_size := 2, correct := 3, count := 4,
    tp := 1, fp := 0, tn := 2, fn' := 1 }

/-- A bundle carrying raw AUC arrays (eval mode with `report_auc`), used
as a concrete evaluation input. -/
def bundleAuc : LoggingOutput :=
  { loss := 1, nsignals := 2, sample_size := 1, correct := 2, count := 2,
    tp := 1, fp := 0, tn := 1, fn' := 0,
    y_true := some [1, 0], y_score := some [9/10, 2/10] }

/-! ## Preprocessing script: `preprocess_pad_ecgiddb.main`, per file

Lines 78–90, for a record already past the 500 Hz gate (`sample_rate ==
500`).  `np.random.randint(length - sec*500)` raises `ValueError` when its
argument is not positive; otherwise it draws `start < length - sec*500`.
`record[start : start + sec*500][None, :]` is a `(1, sec*500)` row,
and `np.concatenate` with `np.zeros((11, 2500))` along axis 0 raises a
shape-mismatch error unless the row length is 2500.  The `--sec` option is
a crop duration in seconds, embedded as `ℕ`. -/

/-- The two ways the per-file conversion can raise. -/
inductive PreprocessError where
  | valueError : PreprocessError
  | shapeError : PreprocessError
deriving Repr, DecidableEq

/-- Per-file body of `main` for a 500 Hz record, with the drawn `start`
made explicit: crop, prepend the cropped row to the `(11, 2500)` zero
block, and return the `feats` matrix, or raise. -/
def processRecord (record : List ℚ) (sec : ℕ) (start : ℕ) :
    Except PreprocessError (List (List ℚ)) :=
  let zeros := List.replicate 11 (List.replicate 2500 (0 : ℚ))
  if record.length ≤ sec * 500 then Except.error PreprocessError.valueError
  else
    let cropped := (record.drop start).take (sec * 500)
    if cropped.length = 2500 then Except.ok (cropped :: zeros)
    else Except.error PreprocessError.shapeError

/-! ## Helper lemmas -/

theorem concatAll_of_all_isSome :
    ∀ {xs : List (Option (List ℚ))}, (∀ x ∈ xs, x.isSome) →
      concatAll xs = some (joinSomes xs) := by
  intro xs
  induction xs with
  | nil => intro _; rfl
  | cons x rest ih =>
    intro h
    obtain ⟨v, hv⟩ := Option.isSome_iff_exists.mp (h x (List.mem_cons_self x rest))
    have hrest := ih (fun y hy => h y (List.mem_cons_of_mem x hy))
    simp [concatAll, hv, hrest, joinSomes]

theorem isSome_of_concatAll_eq_some :
    ∀ {xs : List (Option (List ℚ))} {v : List ℚ}, concatAll xs = some v →
      ∀ x ∈ xs, x.isSome := by
  intro xs
  induction xs with
  | nil => intro v _ x hx; cases hx
  | cons x rest ih =>
    intro v h y hy
    cases x with
    | none => simp [concatAll] at h
    | some w =>
      rcases List.mem_cons.mp hy with rfl | hmem
      · rfl
      · simp only [concatAll] at h
        cases hr : concatAll rest with
        | none => rw [hr] at h; simp at h
        | some r => exact ih hr y hmem

/-- Every non-raising run of `reduce_metrics` emits the `mkReduced` record
for some outcome of the AUC branch. -/
theorem reduce_ok_shape {l : List LoggingOutput} {m : ReducedMetrics}
    (h : reduceMetrics l = Except.ok m) : ∃ af ar, m = mkReduced l af ar := by
  cases l with
  | nil => simp [reduceMetrics] at h
  | cons e rest =>
    simp only [reduceMetrics] at h
    by_cases hc : (e.y_true.isSome && e.y_score.isSome) = true
    · rw [if_pos hc] at h
      cases hyt : concatAll ((e :: rest).map (·.y_true)) with
      | none => rw [hyt] at h; cases h
      | some yt =>
        cases hys : concatAll ((e :: rest).map (·.y_score)) with
        | none => rw [hyt, hys] at h; cases h
        | some ys =>
          rw [hyt, hys] at h
          exact ⟨_, _, (Except.ok.inj h).symm⟩
    · rw [if_neg hc] at h
      exact ⟨none, none, (Except.ok.inj h).symm⟩

/-- When the first bundle carries no raw AUC arrays, `reduce_metrics`
takes the non-AUC path and cannot raise. -/
theorem reduce_of_head_no_y {e : LoggingOutput} {rest : List LoggingOutput}
    (h : e.y_true = none ∨ e.y_score = none) :
    reduceMetrics (e :: rest) = Except.ok (mkReduced (e :: rest) none none) := by
  have hc : (e.y_true.isSome && e.y_score.isSome) = false := by
    rcases h with h | h <;> simp [h]
  simp only [reduceMetrics]
  rw [if_neg (by simp [hc])]

theorem reduce_noauc {k : List LoggingOutput} (hk : k ≠ [])
    (hno : ∀ e ∈ k, e.y_true = none ∧ e.y_score = none) :
    reduceMetrics k = Except.ok (mkReduced k none none) := by
  cases k with
  | nil => exact absurd rfl hk
  | cons e rest =>
    exact reduce_of_head_no_y (Or.inl (hno e (List.mem_cons_self e rest)).1)

/-- When every bundle carries both raw arrays, `reduce_metrics` feeds the
concatenations to the AUC meter and registers `auroc`/`auprc` iff the
concatenated targets are non-empty. -/
theorem reduce_allauc {k : List LoggingOutput} (hk : k ≠ [])
    (hall : ∀ e ∈ k, e.y_true.isSome ∧ e.y_score.isSome) :
    reduceMetrics k = Except.ok (mkReduced k
      (some (joinSomes (k.map (·.y_score)), joinSomes (k.map (·.y_true))))
      (if 0 < (joinSomes (k.map (·.y_true))).length then some 3 else none)) := by
  cases k with
  | nil => exact absurd rfl hk
  | cons e rest =>
    have he := hall e (List.mem_cons_self e rest)
    have hyt : concatAll ((e :: rest).map (·.y_true)) =
        some (joinSomes ((e :: rest).map (·.y_true))) :=
      concatAll_of_all_isSome (by
        intro x hx
        obtain ⟨a, ha, rfl⟩ := List.mem_map.mp hx
        exact (hall a ha).1)
    have hys : concatAll ((e :: rest).map (·.y_score)) =
        some (joinSomes ((e :: rest).map (·.y_score))) :=
      concatAll_of_all_isSome (by
        intro x hx
        obtain ⟨a, ha, rfl⟩ := List.mem_map.mp hx
        exact (hall a ha).2)
    simp only [reduceMetrics]
    rw [if_pos (by simp [he.1, he.2]), hyt, hys]

theorem mkReduced_total (l : List LoggingOutput) (af : Option (List ℚ × List ℚ))
    (ar : Option ℕ) : (mkReduced l af ar).total = (l.map (·.count)).sum := rfl

theorem mkReduced_correct (l : List LoggingOutput) (af : Option (List ℚ × List ℚ))
    (ar : Option ℕ) : (mkReduced l af ar).correct = (l.map (·.correct)).sum := rfl

theorem mkReduced_tp (l : List LoggingOutput) (af : Option (List ℚ × List ℚ))
    (ar : Option ℕ) : (mkReduced l af ar).tp = (l.map (·.tp)).sum := rfl

theorem mkReduced_fp (l : List LoggingOutput) (af : Option (List ℚ × List ℚ))
    (ar : Option ℕ) : (mkReduced l af ar).fp = (l.map (·.fp)).sum := rfl

theorem mkReduced_tn (l : List LoggingOutput) (af : Option (List ℚ × List ℚ))
    (ar : Option ℕ) : (mkReduced l af ar).tn = (l.map (·.tn)).sum := rfl

theorem mkReduced_fn (l : List LoggingOutput) (af : Option (List ℚ × List ℚ))
    (ar : Option ℕ) : (mkReduced l af ar).fn' = (l.map (·.fn')).sum := rfl

theorem mkReduced_nsignals (l : List LoggingOutput) (af : Option (List ℚ × List ℚ))
    (ar : Option ℕ) : (mkReduced l af ar).nsignals = (l.map (·.nsignals)).sum := rfl

theorem mkReduced_sample_size (l : List LoggingOutput) (af : Option (List ℚ × List ℚ))
    (ar : Option ℕ) : (mkReduced l af ar).sample_size = (l.map (·.sample_size)).sum := rfl

theorem mkReduced_loss_nats (l : List LoggingOutput) (af : Option (List ℚ × List ℚ))
    (ar : Option ℕ) :
    (mkReduced l af ar).loss_nats = (l.map (·.loss)).sum /
      (if (l.map (·.sample_size)).sum = 0 then 1
       else ((((l.map (·.sample_size)).sum : ℤ)) : ℚ)) := rfl

theorem mkReduced_accuracy (l : List LoggingOutput) (af : Option (List ℚ × List ℚ))
    (ar : Option ℕ) :
    (mkReduced l af ar).accuracy =
      (if 0 < (l.map (·.count)).sum then
        some (if 0 < (l.map (·.count)).sum then
          MetricVal.val ((((l.map (·.correct)).sum : ℕ)) / (((l.map (·.count)).sum : ℕ) : ℚ))
        else MetricVal.nan)
      else none) := rfl

theorem mkReduced_precision (l : List LoggingOutput) (af : Option (List ℚ × List ℚ))
    (ar : Option ℕ) :
    (mkReduced l af ar).precision =
      (if 0 < (l.map (·.count)).sum then
        some (if 0 < (l.map (·.tp)).sum + (l.map (·.fp)).sum then
          MetricVal.val ((((l.map (·.tp)).sum : ℕ)) /
            ((((l.map (·.tp)).sum : ℕ)) + (((l.map (·.fp)).sum : ℕ)) : ℚ))
        else MetricVal.nan)
      else none) := rfl

theorem mkReduced_recall (l : List LoggingOutput) (af : Option (List ℚ × List ℚ))
    (ar : Option ℕ) :
    (mkReduced l af ar).recall' =
      (if 0 < (l.map (·.count)).sum then
        some (if 0 < (l.map (·.tp)).sum + (l.map (·.fn')).sum then
          MetricVal.val ((((l.map (·.tp)).sum : ℕ)) /
            ((((l.map (·.tp)).sum : ℕ)) + (((l.map (·.fn')).sum : ℕ)) : ℚ))
        else MetricVal.nan)
      else none) := rfl

/-- Splitting the correctness count over binary targets: a position is
correct iff it is a true positive or a true negative. -/
theorem countP_corr_split (l : List (Bool × ℚ))
    (hbin : ∀ x ∈ l, x.2 = 0 ∨ x.2 = 1) :
    l.countP (fun ot => decide (boolToQ ot.1 = ot.2)) =
      l.countP (fun ot => ot.1 && decide (ot.2 = 1)) +
      l.countP (fun ot => !ot.1 && decide (ot.2 = 0)) := by
  induction l with
  | nil => simp
  | cons x xs ih =>
    have ih' := ih (fun y hy => hbin y (List.mem_cons_of_mem x hy))
    rcases hbin x (List.mem_cons_self x xs) with h | h <;> cases hb : x.1 <;>
      simp [List.countP_cons, h, hb, boolToQ] at ih' ⊢ <;> omega

/-- Binary targets partition every position into the `target == 1` and
`target == 0` classes. -/
theorem length_filter_binary (l : List (Bool × ℚ))
    (hbin : ∀ x ∈ l, x.2 = 0 ∨ x.2 = 1) :
    (l.filter (fun ot => decide (ot.2 = 1))).length +
      (l.filter (fun ot => decide (ot.2 = 0))).length = l.length := by
  induction l with
  | nil => simp
  | cons x xs ih =>
    have ih' := ih (fun y hy => hbin y (List.mem_cons_of_mem x hy))
    rcases hbin x (List.mem_cons_self x xs) with h | h <;>
      simp [List.filter_cons, h, ih'] <;> omega

/-- A count splits along the boolean first component. -/
theorem countP_split_fst (l : List (Bool × ℚ)) (q : Bool × ℚ → Bool) :
    l.countP q = l.countP (fun a => a.1 && q a) + l.countP (fun a => !a.1 && q a) := by
  induction l with
  | nil => simp
  | cons x xs ih =>
    cases hb : x.1 <;> cases hq : q x <;>
      simp [List.countP_cons, hb, hq, ih] <;> omega

/-! ## Claims -/

/-- C8: `logging_outputs_can_be_summed` returns `False` for every
invocation: the criterion's per-worker logging outputs must not be
pre-summed before `reduce_metrics`. -/
theorem logging_outputs_not_presummable : logging_outputs_can_be_summed = false := rfl

/-- C9: `reduce_metrics` requires a non-empty statistics sequence: on `[]`
the unconditional subscript `logging_outputs[0]` raises IndexError, and
with at least one entry present that index error is unreachable. -/
theorem reduce_requires_nonempty :
    reduceMetrics [] = Except.error ReduceError.indexError ∧
    ∀ l : List LoggingOutput, l ≠ [] →
      reduceMetrics l ≠ Except.error ReduceError.indexError := by
  constructor
  · rfl
  · intro l hl
    cases l with
    | nil => exact absurd rfl hl
    | cons e rest =>
      simp only [reduceMetrics]
      by_cases hc : (e.y_true.isSome && e.y_score.isSome) = true
      · rw [if_pos hc]
        cases hyt : concatAll ((e :: rest).map (·.y_true)) with
        | none => simp
        | some yt =>
          cases hys : concatAll ((e :: rest).map (·.y_score)) with
          | none => simp
          | some ys => simp
      · rw [if_neg hc]
        simp

/-- C2: `sample_size` is chosen by a fixed three-way precedence — the
explicit `sample_size` field if present, else the number of flagged
`mask_indices` positions, else the integer sum of the targets; targets
`[1,1,0,0]` give `sample_size = 2`. -/
theorem sample_size_three_way_precedence
    (ss : Option ℤ) (mi : Option (List Bool)) (target : List ℚ) :
    (∀ v, ss = some v → sample_size_of ss mi target = v) ∧
    (∀ m, ss = none → mi = some m →
      sample_size_of ss mi target = (m.countP (fun b => b) : ℤ)) ∧
    (ss = none → mi = none →
      sample_size_of ss mi target = (target.map pyLong).sum) ∧
    sample_size_of none none [1, 1, 0, 0] = 2 := by
  refine ⟨?_, ?_, ?_, ?_⟩
  · rintro v rfl; rfl
  · rintro m rfl rfl; rfl
  · rintro rfl rfl; rfl
  · norm_num [sample_size_of, pyLong]

theorem sample_size_three_way_precedence_witness :
    sample_size_of (some 7) (some [true]) [1] = 7 ∧
    sample_size_of none (some [true, false, true]) [1] = 2 ∧
    sample_size_of none none [1, 1, 0, 0] = 2 :=
  ⟨(sample_size_three_way_precedence (some 7) (some [true]) [1]).1 7 rfl,
   ((sample_size_three_way_precedence none (some [true, false, true]) [1]).2.1
      [true, false, true] rfl rfl).trans (by norm_num),
   (sample_size_three_way_precedence none none [1, 1, 0, 0]).2.2.2⟩

/-- C5 counterexample: on the non-empty sequence `[bundleZero]` the summed
total is `0`, and the reducer registers NO `accuracy`/`precision`/`recall`
metric at all (the `if total > 0` gate at line 166 skips the
`log_derived` calls), rather than yielding NaN values as claimed. -/
theorem reduce_zero_total_omits_metrics_cx :
    reduceMetrics [bundleZero] = Except.ok (mkReduced [bundleZero] none none) ∧
    (mkReduced [bundleZero] none none).total = 0 ∧
    (mkReduced [bundleZero] none none).accuracy = none ∧
    (mkReduced [bundleZero] none none).precision = none ∧
    (mkReduced [bundleZero] none none).recall' = none ∧
    (none : Option MetricVal) ≠ some MetricVal.nan := by
  refine ⟨rfl, rfl, ?_, ?_, ?_, by simp⟩ <;>
    norm_num [mkReduced_accuracy, mkReduced_precision, mkReduced_recall, bundleZero]

/-- C5 amended: the reducer never raises on a zero denominator; when the
summed total is `0` it omits `accuracy`/`precision`/`recall` entirely
(registers nothing, rather than NaN), and when the summed total is
positive it registers all three, with `precision` NaN iff
`tp_sum + fp_sum = 0`, `recall` NaN iff `tp_sum + fn_sum = 0`, and
`accuracy` always a finite ratio. -/
theorem reduce_nan_denominators
    (l : List LoggingOutput) (m : ReducedMetrics)
    (h : reduceMetrics l = Except.ok m) :
    (m.total = 0 → m.accuracy = none ∧ m.precision = none ∧ m.recall' = none) ∧
    (0 < m.total →
      m.accuracy = some (MetricVal.val ((m.correct : ℚ) / (m.total : ℚ))) ∧
      m.precision.isSome ∧ m.recall'.isSome ∧
      (m.precision = some MetricVal.nan ↔ m.tp + m.fp = 0) ∧
      (m.recall' = some MetricVal.nan ↔ m.tp + m.fn' = 0) ∧
      (0 < m.tp + m.fp → m.precision =
        some (MetricVal.val ((m.tp : ℚ) / ((m.tp : ℚ) + (m.fp : ℚ))))) ∧
      (0 < m.tp + m.fn' → m.recall' =
        some (MetricVal.val ((m.tp : ℚ) / ((m.tp : ℚ) + (m.fn' : ℚ)))))) := by
  obtain ⟨af, ar, rfl⟩ := reduce_ok_shape h
  rw [mkReduced_total, mkReduced_correct, mkReduced_tp, mkReduced_fp, mkReduced_fn,
    mkReduced_accuracy, mkReduced_precision, mkReduced_recall]
  constructor
  · intro h0
    rw [h0]
    simp
  · intro hpos
    rw [if_pos hpos, if_pos hpos, if_pos hpos, if_pos hpos]
    refine ⟨rfl, by simp, by simp, ?_, ?_, ?_, ?_⟩
    · by_cases hd : 0 < (l.map (·.tp)).sum + (l.map (·.fp)).sum
      · rw [if_pos hd]; simp; omega
      · rw [if_neg hd]; simp; omega
    · by_cases hd : 0 < (l.map (·.tp)).sum + (l.map (·.fn')).sum
      · rw [if_pos hd]; simp; omega
      · rw [if_neg hd]; simp; omega
    · intro hd
      rw [if_pos hd]
    · intro hd
      rw [if_pos hd]

theorem reduce_nan_denominators_witness :
    (mkReduced [bundleA] none none).accuracy =
      some (MetricVal.val (((mkReduced [bundleA] none none).correct : ℚ) /
        ((mkReduced [bundleA] none none).total : ℚ))) ∧
    (mkReduced [bundleA] none none).precision.isSome ∧
    (mkReduced [bundleA] none none).recall'.isSome ∧
    ((mkReduced [bundleA] none none).precision = some MetricVal.nan ↔
      (mkReduced [bundleA] none none).tp + (mkReduced [bundleA] none none).fp = 0) ∧
    (mkReduced [bundleA] none none).precision =
      some (MetricVal.val (((mkReduced [bundleA] none none).tp : ℚ) /
        (((mkReduced [bundleA] none none).tp : ℚ) +
          ((mkReduced [bundleA] none none).fp : ℚ)))) := by
  have h := reduce_nan_denominators [bundleA] (mkReduced [bundleA] none none) rfl
  have hpos : 0 < (mkReduced [bundleA] none none).total := by
    norm_num [mkReduced_total, bundleA]
  have hd : 0 < (mkReduced [bundleA] none none).tp + (mkReduced [bundleA] none none).fp := by
    norm_num [mkReduced_tp, mkReduced_fp, bundleA]
  exact ⟨(h.2 hpos).1, (h.2 hpos).2.1, (h.2 hpos).2.2.1, (h.2 hpos).2.2.2.1,
    (h.2 hpos).2.2.2.2.2.1 hd⟩

/-- C6: the `loss` metric is the summed loss over `max(sample_size_sum, 1)`
(the Python `sample_size or 1`), further divided by `ln 2`, and is
registered with `round = 3`. -/
theorem reduce_loss_normalization
    (l : List LoggingOutput) (m : ReducedMetrics)
    (h : reduceMetrics l = Except.ok m)
    (hpos : ∀ e ∈ l, 0 ≤ e.sample_size) :
    emittedLoss m =
      ((((l.map (·.loss)).sum : ℚ)) : ℝ) /
        (((max ((l.map (·.sample_size)).sum) 1 : ℤ)) : ℝ) / Real.log 2 ∧
    m.loss_round = 3 := by
  obtain ⟨af, ar, rfl⟩ := reduce_ok_shape h
  refine ⟨?_, rfl⟩
  have hS : (0 : ℤ) ≤ (l.map (·.sample_size)).sum := by
    apply List.sum_nonneg
    intro x hx
    obtain ⟨e, he, rfl⟩ := List.mem_map.mp hx
    exact hpos e he
  unfold emittedLoss
  rw [mkReduced_loss_nats]
  by_cases h0 : (l.map (·.sample_size)).sum = 0
  · rw [if_pos h0, h0]
    norm_num
  · have h1 : (1 : ℤ) ≤ (l.map (·.sample_size)).sum := by omega
    rw [if_neg h0, max_eq_left h1, Rat.cast_div, Rat.cast_intCast]

theorem reduce_loss_normalization_witness :
    emittedLoss (mkReduced [bundleA] none none) = (2 : ℝ) / 5 / Real.log 2 ∧
    (mkReduced [bundleA] none none).loss_round = 3 := by
  have h := reduce_loss_normalization [bundleA] (mkReduced [bundleA] none none) rfl
    (by intro e he; simp only [List.mem_singleton] at he; subst he; norm_num [bundleA])
  refine ⟨?_, h.2⟩
  rw [h.1]
  norm_num [bundleA]

theorem reduce_requires_nonempty_witness :
    reduceMetrics [] = Except.error ReduceError.indexError ∧
    reduceMetrics [bundleZero] ≠ Except.error ReduceError.indexError :=
  ⟨reduce_requires_nonempty.1,
   reduce_requires_nonempty.2 [bundleZero] (by simp)⟩

/-- C7: the reducer computes AUC metrics precisely when every entry
carries raw targets and raw scores (concatenating them across entries);
when no entry carries them it silently takes the non-AUC path (no error);
and `auroc`/`auprc` are registered (with rounding digit 3) iff the
concatenated target sequence is non-empty, being omitted (`none`, not a
NaN value) otherwise. -/
theorem reduce_auc_gating (l : List LoggingOutput) (hne : l ≠ []) :
    ((∃ m, reduceMetrics l = Except.ok m ∧ m.auc_fed.isSome) ↔
      ∀ e ∈ l, e.y_true.isSome ∧ e.y_score.isSome) ∧
    ((∀ e ∈ l, e.y_true.isSome ∧ e.y_score.isSome) →
      reduceMetrics l = Except.ok (mkReduced l
        (some (joinSomes (l.map (·.y_score)), joinSomes (l.map (·.y_true))))
        (if 0 < (joinSomes (l.map (·.y_true))).length then some 3 else none))) ∧
    ((∀ e ∈ l, ¬(e.y_true.isSome ∧ e.y_score.isSome)) →
      reduceMetrics l = Except.ok (mkReduced l none none)) := by
  refine ⟨⟨?_, ?_⟩, reduce_allauc hne, ?_⟩
  · rintro ⟨m, hok, hsome⟩
    cases l with
    | nil => exact absurd rfl hne
    | cons e rest =>
      by_cases hc : (e.y_true.isSome && e.y_score.isSome) = true
      · simp only [reduceMetrics, if_pos hc] at hok
        cases hyt : concatAll ((e :: rest).map (·.y_true)) with
        | none => rw [hyt] at hok; cases hok
        | some yt =>
          cases hys : concatAll ((e :: rest).map (·.y_score)) with
          | none => rw [hyt, hys] at hok; cases hok
          | some ys =>
            intro a ha
            constructor
            · exact isSome_of_concatAll_eq_some hyt _ (List.mem_map.mpr ⟨a, ha, rfl⟩)
            · exact isSome_of_concatAll_eq_some hys _ (List.mem_map.mpr ⟨a, ha, rfl⟩)
      · have hno : e.y_true = none ∨ e.y_score = none := by
          cases hyt : e.y_true <;> cases hys : e.y_score <;> simp_all
        rw [reduce_of_head_no_y hno] at hok
        have hm := Except.ok.inj hok
        rw [← hm] at hsome
        simp [mkReduced] at hsome
  · intro hall
    rw [reduce_allauc hne hall]
    exact ⟨_, rfl, rfl⟩
  · intro hnone
    cases l with
    | nil => exact absurd rfl hne
    | cons e rest =>
      have he := hnone e (List.mem_cons_self e rest)
      rcases Classical.em (e.y_true.isSome = true) with h | h
      · exact reduce_of_head_no_y (Or.inr (Option.not_isSome_iff_eq_none.mp
          (fun hs => he ⟨h, hs⟩)))
      · exact reduce_of_head_no_y (Or.inl (Option.not_isSome_iff_eq_none.mp h))

theorem reduce_auc_gating_witness :
    reduceMetrics [bundleAuc] = Except.ok (mkReduced [bundleAuc]
      (some (joinSomes ([bundleAuc].map (·.y_score)),
             joinSomes ([bundleAuc].map (·.y_true))))
      (if 0 < (joinSomes ([bundleAuc].map (·.y_true))).length then some 3
       else none)) ∧
    reduceMetrics [bundleZero] = Except.ok (mkReduced [bundleZero] none none) :=
  ⟨(reduce_auc_gating [bundleAuc] (by simp)).2.1 (by
      intro e he
      simp only [List.mem_singleton] at he
      subst he
      exact ⟨rfl, rfl⟩),
   (reduce_auc_gating [bundleZero] (by simp)).2.2 (by
      intro e he
      simp only [List.mem_singleton] at he
      subst he
      rintro ⟨h, _⟩
      cases h)⟩

/-- C1: reduction is order-independent — permuting the statistics
sequence leaves every summed field (`loss`, `nsignals`, `sample_size`,
`correct`, `total`, `tp`, `fp`, `tn`, `fn`) of the emitted record
unchanged — and sum-then-ratio equals ratio-of-sums: the accuracy derived
from N single-entry bundles equals the accuracy derived from the one
bundle holding the pooled counts. -/
theorem reduce_metrics_order_independent_pooling
    (l l' : List LoggingOutput) (m m' : ReducedMetrics)
    (hperm : l.Perm l')
    (hl : reduceMetrics l = Except.ok m) (hl' : reduceMetrics l' = Except.ok m') :
    (m.loss_nats = m'.loss_nats ∧ m.nsignals = m'.nsignals ∧
     m.sample_size = m'.sample_size ∧ m.correct = m'.correct ∧
     m.total = m'.total ∧ m.tp = m'.tp ∧ m.fp = m'.fp ∧
     m.tn = m'.tn ∧ m.fn' = m'.fn') ∧
    (∀ k : List LoggingOutput, k ≠ [] →
      (∀ e ∈ k, e.y_true = none ∧ e.y_score = none) →
      ∃ a b, reduceMetrics k = Except.ok a ∧
        reduceMetrics [poolStats k] = Except.ok b ∧ a.accuracy = b.accuracy) := by
  constructor
  · obtain ⟨af, ar, rfl⟩ := reduce_ok_shape hl
    obtain ⟨af', ar', rfl⟩ := reduce_ok_shape hl'
    refine ⟨?_, ?_, ?_, ?_, ?_, ?_, ?_, ?_, ?_⟩
    · rw [mkReduced_loss_nats, mkReduced_loss_nats,
        (hperm.map (·.loss)).sum_eq, (hperm.map (·.sample_size)).sum_eq]
    · rw [mkReduced_nsignals, mkReduced_nsignals, (hperm.map (·.nsignals)).sum_eq]
    · rw [mkReduced_sample_size, mkReduced_sample_size,
        (hperm.map (·.sample_size)).sum_eq]
    · rw [mkReduced_correct, mkReduced_correct, (hperm.map (·.correct)).sum_eq]
    · rw [mkReduced_total, mkReduced_total, (hperm.map (·.count)).sum_eq]
    · rw [mkReduced_tp, mkReduced_tp, (hperm.map (·.tp)).sum_eq]
    · rw [mkReduced_fp, mkReduced_fp, (hperm.map (·.fp)).sum_eq]
    · rw [mkReduced_tn, mkReduced_tn, (hperm.map (·.tn)).sum_eq]
    · rw [mkReduced_fn, mkReduced_fn, (hperm.map (·.fn')).sum_eq]
  · intro k hk hno
    refine ⟨mkReduced k none none, mkReduced [poolStats k] none none,
      reduce_noauc hk hno, reduce_noauc (by simp) ?_, ?_⟩
    · intro e he
      simp only [List.mem_singleton] at he
      subst he
      exact ⟨rfl, rfl⟩
    · rw [mkReduced_accuracy, mkReduced_accuracy]
      simp [poolStats]

theorem reduce_metrics_order_independent_pooling_witness :
    ((mkReduced [bundleA, bundleB] none none).correct =
      (mkReduced [bundleB, bundleA] none none).correct) ∧
    ∃ a b, reduceMetrics [bundleA, bundleB] = Except.ok a ∧
      reduceMetrics [poolStats [bundleA, bundleB]] = Except.ok b ∧
      a.accuracy = b.accuracy := by
  have h := reduce_metrics_order_independent_pooling
    [bundleA, bundleB] [bundleB, bundleA]
    (mkReduced [bundleA, bundleB] none none)
    (mkReduced [bundleB, bundleA] none none)
    (List.Perm.swap bundleB bundleA []) rfl rfl
  refine ⟨h.1.2.2.2.1, h.2 [bundleA, bundleB] (by simp) ?_⟩
  intro e he
  simp only [List.mem_cons, List.not_mem_nil, or_false] at he
  rcases he with rfl | rfl
  · exact ⟨rfl, rfl⟩
  · exact ⟨rfl, rfl⟩

/-- C3: for every batch with binary targets, the produced statistics
satisfy `count = tp + fp + tn + fn` and `correct = tp + tn`. -/
theorem forward_stats_confusion_invariant
    (probs target : List ℚ) (corr count tp fp tn fnn : ℕ)
    (hlen : probs.length = target.length)
    (hbin : ∀ t ∈ target, t = 0 ∨ t = 1)
    (h : forwardStats probs target = (corr, count, tp, fp, tn, fnn)) :
    count = tp + fp + tn + fnn ∧ corr = tp + tn := by
  simp only [forwardStats] at h
  by_cases hp : probs.length = 0
  · rw [if_pos hp] at h
    simp only [Prod.mk.injEq] at h
    omega
  · rw [if_neg hp] at h
    simp only [Prod.mk.injEq] at h
    obtain ⟨hc, hcnt, htp, hfp, htn, hfn⟩ := h
    set L := (probs.map (fun p => decide ((1 : ℚ)/2 < p))).zip target with hL
    have hbl : ∀ x ∈ L, x.2 = 0 ∨ x.2 = 1 := by
      rintro ⟨a, b⟩ hx
      exact hbin b (List.of_mem_zip hx).2
    have hLlen : L.length = probs.length := by
      rw [hL]
      simp [hlen]
    have htp1 : List.countP (fun ot => ot.1) (L.filter (fun ot => decide (ot.2 = 1))) = tp := htp
    have hfp1 : List.countP (fun ot => ot.1) (L.filter (fun ot => decide (ot.2 = 0))) = fp := hfp
    have htple := List.countP_le_length (p := fun ot => ot.1)
      (l := L.filter (fun ot => decide (ot.2 = 1)))
    have hfple := List.countP_le_length (p := fun ot => ot.1)
      (l := L.filter (fun ot => decide (ot.2 = 0)))
    have hpart := length_filter_binary L hbl
    constructor
    · omega
    · have hsplit := countP_corr_split L hbl
      have h1 : L.countP (fun a => a.1 && decide (a.2 = 1)) = tp := by
        rw [← htp1, List.countP_filter]
      have h2 : L.countP (fun a => a.1 && decide (a.2 = 0)) = fp := by
        rw [← hfp1, List.countP_filter]
      have hq0 := countP_split_fst L (fun a => decide (a.2 = 0))
      have hneg : (L.filter (fun ot => decide (ot.2 = 0))).length =
          L.countP (fun a => decide (a.2 = 0)) :=
        (List.countP_eq_length_filter _ _).symm
      omega

theorem forward_stats_confusion_invariant_witness :
    (4 : ℕ) = 2 + 0 + 2 + 0 ∧ (4 : ℕ) = 2 + 2 :=
  forward_stats_confusion_invariant [9/10, 2/10, 6/10, 1/10] [1, 0, 1, 0]
    4 4 2 0 2 0 (by norm_num)
    (by intro t ht; simp only [List.mem_cons, List.not_mem_nil, or_false] at ht
        rcases ht with rfl | rfl | rfl | rfl
        · right; rfl
        · left; rfl
        · right; rfl
        · left; rfl)
    (by norm_num [forwardStats, boolToQ])

/-- C4: the producer binarizes probabilities at threshold `0.5`; an empty
batch yields all-zero statistics; otherwise `tp`/`fp` count the positive
predictions inside the `target == 1` / `target == 0` partitions and
`fn`/`tn` are the partition sizes minus them; the concrete batch
`[0.9, 0.2, 0.6, 0.1]` vs `[1, 0, 1, 0]` gives
`(corr, count, tp, fp, tn, fn) = (4, 4, 2, 0, 2, 0)`. -/
theorem forward_stats_threshold_partition :
    (∀ target : List ℚ, forwardStats [] target = (0, 0, 0, 0, 0, 0)) ∧
    (∀ probs target : List ℚ, ∀ corr count tp fp tn fnn : ℕ,
      probs ≠ [] →
      forwardStats probs target = (corr, count, tp, fp, tn, fnn) →
      tp = ((probs.zip target).filter (fun pt => decide (pt.2 = 1))).countP
              (fun pt => decide ((1 : ℚ)/2 < pt.1)) ∧
      fp = ((probs.zip target).filter (fun pt => decide (pt.2 = 0))).countP
              (fun pt => decide ((1 : ℚ)/2 < pt.1)) ∧
      fnn = ((probs.zip target).filter (fun pt => decide (pt.2 = 1))).length - tp ∧
      tn = ((probs.zip target).filter (fun pt => decide (pt.2 = 0))).length - fp) ∧
    forwardStats [9/10, 2/10, 6/10, 1/10] [1, 0, 1, 0] = (4, 4, 2, 0, 2, 0) := by
  refine ⟨fun target => rfl, ?_, by norm_num [forwardStats, boolToQ]⟩
  intro probs target corr count tp fp tn fnn hne h
  simp only [forwardStats] at h
  rw [if_neg (fun h0 => hne (List.length_eq_zero.mp h0))] at h
  simp only [Prod.mk.injEq] at h
  obtain ⟨hc, hcnt, htp, hfp, htn, hfn⟩ := h
  have hzm : (probs.map (fun p => decide ((1 : ℚ)/2 < p))).zip target =
      (probs.zip target).map (Prod.map (fun p => decide ((1 : ℚ)/2 < p)) id) :=
    List.zip_map_left _ _ _
  rw [hzm] at htp hfp htn hfn
  have etp : tp = ((probs.zip target).filter (fun pt => decide (pt.2 = 1))).countP
      (fun pt => decide ((1 : ℚ)/2 < pt.1)) := by
    rw [← htp]
    simp [List.countP_filter, List.countP_map, Function.comp_def, Prod.map]
  have efp : fp = ((probs.zip target).filter (fun pt => decide (pt.2 = 0))).countP
      (fun pt => decide ((1 : ℚ)/2 < pt.1)) := by
    rw [← hfp]
    simp [List.countP_filter, List.countP_map, Function.comp_def, Prod.map]
  have elen1 : (((probs.zip target).map
        (Prod.map (fun p => decide ((1 : ℚ)/2 < p)) id)).filter
        (fun ot => decide (ot.2 = 1))).length =
      ((probs.zip target).filter (fun pt => decide (pt.2 = 1))).length := by
    simp [← List.countP_eq_length_filter, List.countP_map, Function.comp_def, Prod.map]
  have elen0 : (((probs.zip target).map
        (Prod.map (fun p => decide ((1 : ℚ)/2 < p)) id)).filter
        (fun ot => decide (ot.2 = 0))).length =
      ((probs.zip target).filter (fun pt => decide (pt.2 = 0))).length := by
    simp [← List.countP_eq_length_filter, List.countP_map, Function.comp_def, Prod.map]
  refine ⟨etp, efp, ?_, ?_⟩
  · rw [← hfn, elen1, htp]
  · rw [← htn, elen0, hfp]

theorem forward_stats_threshold_partition_witness :
    forwardStats [9/10, 2/10, 6/10, 1/10] [1, 0, 1, 0] = (4, 4, 2, 0, 2, 0) ∧
    (2 : ℕ) = (([(9:ℚ)/10, 2/10, 6/10, 1/10].zip ([1, 0, 1, 0] : List ℚ)).filter
        (fun pt => decide (pt.2 = 1))).countP (fun pt => decide ((1 : ℚ)/2 < pt.1)) := by
  have h := forward_stats_threshold_partition.2.1 [9/10, 2/10, 6/10, 1/10]
    [1, 0, 1, 0] 4 4 2 0 2 0 (by simp) forward_stats_threshold_partition.2.2
  exact ⟨forward_stats_threshold_partition.2.2, h.1⟩

/-- C10 counterexample: with a standard 20-second 500 Hz ECG-ID record
(10000 samples) and `--sec 20`, `length - sec*500 = 0`, so
`np.random.randint` raises ValueError before the concatenation is ever
reached — not the shape-mismatch error the claim promises for every
`sec ≠ 5`. -/
theorem preprocess_pad_valueerror_cx :
    processRecord (List.replicate 10000 (0 : ℚ)) 20 0 =
      Except.error PreprocessError.valueError ∧
    (Except.error PreprocessError.valueError :
        Except PreprocessError (List (List ℚ))) ≠
      Except.error PreprocessError.shapeError := by
  constructor
  · simp only [processRecord]
    rw [if_pos (by simp only [List.length_replicate]; norm_num)]
  · simp

/-- C10 amended: for a 500 Hz record and a start drawn by
`np.random.randint(length - sec*500)` (so `start + sec*500 < length`),
the per-file conversion succeeds iff `sec = 5` — producing the cropped
row atop the `(11, 2500)` zero block — and raises a shape-mismatch error
for every other such `sec`; but when `length ≤ sec*500` the conversion
raises a ValueError from the random-start draw instead, never reaching
the concatenation. -/
theorem preprocess_pad_shape_gate
    (record : List ℚ) (sec start : ℕ)
    (hstart : start + sec * 500 < record.length) :
    ((∃ M, processRecord record sec start = Except.ok M) ↔ sec = 5) ∧
    (sec ≠ 5 →
      processRecord record sec start = Except.error PreprocessError.shapeError) ∧
    (∀ r : List ℚ, ∀ s st : ℕ, r.length ≤ s * 500 →
      processRecord r s st = Except.error PreprocessError.valueError) ∧
    (sec = 5 → processRecord record sec start =
      Except.ok ((record.drop start).take 2500 ::
        List.replicate 11 (List.replicate 2500 (0 : ℚ)))) := by
  have hgate : ¬ record.length ≤ sec * 500 := by omega
  have hcrop : ((record.drop start).take (sec * 500)).length = sec * 500 := by
    simp only [List.length_take, List.length_drop]
    omega
  refine ⟨⟨?_, ?_⟩, ?_, ?_, ?_⟩
  · rintro ⟨M, hM⟩
    simp only [processRecord, if_neg hgate] at hM
    by_cases hlen : ((record.drop start).take (sec * 500)).length = 2500
    · rw [hcrop] at hlen
      omega
    · rw [if_neg hlen] at hM
      cases hM
  · rintro rfl
    refine ⟨(record.drop start).take (5 * 500) ::
      List.replicate 11 (List.replicate 2500 (0 : ℚ)), ?_⟩
    simp only [processRecord, if_neg hgate]
    rw [if_pos (by rw [hcrop])]
  · intro hsec
    simp only [processRecord, if_neg hgate]
    rw [if_neg (by rw [hcrop]; omega)]
  · intro r s st hr
    simp [processRecord, hr]
  · rintro rfl
    simp only [processRecord, if_neg hgate]
    rw [if_pos (by rw [hcrop])]

theorem preprocess_pad_shape_gate_witness :
    processRecord (List.replicate 3000 (0 : ℚ)) 5 0 =
      Except.ok (((List.replicate 3000 (0 : ℚ)).drop 0).take 2500 ::
        List.replicate 11 (List.replicate 2500 (0 : ℚ))) ∧
    processRecord (List.replicate 3000 (0 : ℚ)) 4 0 =
      Except.error PreprocessError.shapeError := by
  have h5 := preprocess_pad_shape_gate (List.replicate 3000 (0 : ℚ)) 5 0
    (by simp only [List.length_replicate]; norm_num)
  have h4 := preprocess_pad_shape_gate (List.replicate 3000 (0 : ℚ)) 4 0
    (by simp only [List.length_replicate]; norm_num)
  exact ⟨h5.2.2.2 rfl, h4.2.1 (by norm_num)⟩

end FairseqSignals
